import Mathlib

/-!
Verification of the streaming document engine of the `meowi` terminal chat
client.  The definitions below are a shallow embedding of the Rust source:

* `src/app.rs`   — stream registry (`process_stream`), code-block extractor
  (`parse_code_blocks_helper`), `jump_to_last_message`, `add_user_message`;
* `src/ui.rs`    — renderer segment splitter (`parse_message_segments`),
  the document-cache build and clamping logic of `draw_chat`, `mask_api_key`;
* `src/main.rs`  — the navigation commands of `handle_key`.

Rust `String`s are modelled as Lean `String`s (sequences of characters);
`usize` arithmetic is `Nat` (saturating ops become truncated `Nat`
subtraction), `u16` casts are `% 65536` and `u16::MAX` is the literal 65535.
The regex character class `\w` of the extractor is modelled at the ASCII
level (`[A-Za-z0-9_]`), and `\s` / `char::is_whitespace` by
`Char.isWhitespace`.
-/

namespace Meowi

/-- Characters accepted by the `\w` class of the extractor's fence regexes. -/
def isWordChar (c : Char) : Bool :=
  c.isAlphanum || c = '_'

/-- The three-backtick fence marker, written via code points to keep the
source free of literal backticks outside strings. -/
def fenceMarker : List Char := [Char.ofNat 96, Char.ofNat 96, Char.ofNat 96]

/-- Rust `str::trim` on the character level: drop whitespace from both ends. -/
def trimChars (cs : List Char) : List Char :=
  ((cs.dropWhile Char.isWhitespace).reverse.dropWhile Char.isWhitespace).reverse

/-- Rust `str::trim`. -/
def strTrim (s : String) : String := String.mk (trimChars s.data)

/-- Helper for `rustLines`: split at newline characters, stripping a carriage
return that immediately precedes a newline; the final segment is emitted only
when nonempty.  `acc` holds the current line reversed. -/
def rustLinesAux : List Char → List Char → List String
  | acc, [] => if acc.isEmpty then [] else [String.mk acc.reverse]
  | acc, c :: rest =>
    if c = '\n' then
      let line := match acc with
        | '\r' :: acc2 => acc2.reverse
        | _ => acc.reverse
      String.mk line :: rustLinesAux [] rest
    else rustLinesAux (c :: acc) rest

/-- Rust `str::lines`. -/
def rustLines (s : String) : List String := rustLinesAux [] s.data

/-- `Vec<&str>::join("\n")`. -/
def joinNL : List String → String
  | [] => ""
  | [x] => x
  | x :: xs => x ++ "\n" ++ joinNL xs

/-- The opening-fence regex `^(three backticks)(\w+)?\s*$` of
`parse_code_blocks_helper` (src/app.rs).  Returns `some lang?` when the line
matches, where `lang?` is the optional captured language tag. -/
def openingCapture (s : String) : Option (Option String) :=
  if s.data.take 3 = fenceMarker then
    let rest := s.data.drop 3
    let w := rest.takeWhile isWordChar
    let r := rest.dropWhile isWordChar
    if r.all Char.isWhitespace then
      some (if w.isEmpty then none else some (String.mk w))
    else none
  else none

/-- The closing-fence regex `^(three backticks)\s*$` of
`parse_code_blocks_helper` (src/app.rs). -/
def isClosingFence (s : String) : Bool :=
  s.data.take 3 == fenceMarker && (s.data.drop 3).all Char.isWhitespace

/-- `str::strip_prefix` with the three-backtick marker, as used by
`parse_message_segments` (src/ui.rs). -/
def stripFence (s : String) : Option String :=
  if s.data.take 3 = fenceMarker then some (String.mk (s.data.drop 3)) else none

/-- The `CodeBlock` struct of src/app.rs. -/
structure CodeBlock where
  content : String
  language : Option String
  start_line : Nat
  end_line : Nat
  deriving DecidableEq

/-- Scanner state of the extractor loop: outside any block, or inside a block
opened with the given language at the given line index, with the collected
code lines held reversed. -/
inductive ScanMode where
  | outside
  | inside (lang : Option String) (start : Nat) (acc : List String)
  deriving DecidableEq

/-- One flush of the extractor when a block ends at line index `endFence`
(the closing fence's index, or the total line count at end-of-text):
`start_line = start_fence + 1`, `end_line = end_fence - 1` (saturating). -/
def mkBlock (lang : Option String) (start endFence : Nat) (acc : List String) :
    CodeBlock :=
  ⟨joinNL acc.reverse, lang, start + 1, endFence - 1⟩

/-- The scan loop of `parse_code_blocks_helper` (src/app.rs), one line per
step.  `idx` is the current line index. -/
def pcbGo (msgIdx : Nat) : Nat → ScanMode → List String → List (Nat × CodeBlock)
  | _, .outside, [] => []
  | idx, .inside lang start acc, [] => [(msgIdx, mkBlock lang start idx acc)]
  | idx, .outside, l :: ls =>
    match openingCapture l with
    | some lang => pcbGo msgIdx (idx + 1) (.inside lang idx []) ls
    | none => pcbGo msgIdx (idx + 1) .outside ls
  | idx, .inside lang start acc, l :: ls =>
    if isClosingFence l then
      (msgIdx, mkBlock lang start idx acc) :: pcbGo msgIdx (idx + 1) .outside ls
    else
      pcbGo msgIdx (idx + 1) (.inside lang start (l :: acc)) ls

/-- `App::parse_code_blocks_helper` (src/app.rs). -/
def parseCodeBlocksHelper (msgIdx : Nat) (content : String) :
    List (Nat × CodeBlock) :=
  pcbGo msgIdx 0 .outside (rustLines content)

/-- The `MessageSegment` enum of src/ui.rs. -/
inductive MessageSegment where
  | text (s : String)
  | code (language : Option String) (content : String)
  deriving DecidableEq

/-- Rust `str::eq_ignore_ascii_case`. -/
def eqIgnoreAsciiCase (a b : String) : Bool :=
  a.data.map Char.toLower == b.data.map Char.toLower

/-- State of the renderer's segment splitter: collecting plain text lines, or
collecting the code lines of an open block (held reversed). -/
inductive SegMode where
  | plain (cur : List String)
  | inCode (lang : Option String) (acc : List String)
  deriving DecidableEq

/-- Content of a finished code segment in `parse_message_segments`
(src/ui.rs): when the block has a language tag and its first collected line
trim-equals the tag (ASCII case-insensitively), that first line is dropped. -/
def segContent (lang : Option String) (code : List String) : String :=
  match lang, code with
  | some ltag, first :: rest2 =>
    if eqIgnoreAsciiCase (strTrim first) (strTrim ltag) then joinNL rest2
    else joinNL code
  | _, _ => joinNL code

/-- The loop of `parse_message_segments` (src/ui.rs), one line per step. -/
def pmsGo : SegMode → List String → List MessageSegment
  | .plain cur, [] =>
    if cur.isEmpty then [] else [MessageSegment.text (joinNL cur)]
  | .inCode lang acc, [] =>
    [MessageSegment.code lang (segContent lang acc.reverse)]
  | .plain cur, l :: ls =>
    match stripFence l with
    | some rest =>
      let flushed := if cur.isEmpty then ([] : List MessageSegment)
        else [MessageSegment.text (joinNL cur)]
      let lang := if (strTrim rest).isEmpty then none else some (strTrim rest)
      flushed ++ pmsGo (.inCode lang []) ls
    | none => pmsGo (.plain (cur ++ [l])) ls
  | .inCode lang acc, l :: ls =>
    if strTrim l == String.mk fenceMarker then
      MessageSegment.code lang (segContent lang acc.reverse)
        :: pmsGo (.plain []) ls
    else
      pmsGo (.inCode lang (l :: acc)) ls

/-- `parse_message_segments` (src/ui.rs). -/
def parseMessageSegments (content : String) : List MessageSegment :=
  pmsGo (.plain []) (rustLines content)

/-- The (language, content) pairs of the code segments, in order. -/
def codeSegsOf (segs : List MessageSegment) : List (Option String × String) :=
  segs.filterMap fun s =>
    match s with
    | .code lang c => some (lang, c)
    | .text _ => none

/-- Whether line `x` trim-matches (ASCII case-insensitively) the language
tag of opening-fence line `l`, the situation in which the renderer drops the
first code line of a block; used to state the agreement condition of the
two fence grammars in a decidable form. -/
def tagClash (l x : String) : Bool :=
  match openingCapture l with
  | some (some w) => eqIgnoreAsciiCase (strTrim x) (strTrim w)
  | _ => false

/-- The (language, content) pairs of extracted blocks, in order. -/
def blocksLC (bs : List (Nat × CodeBlock)) : List (Option String × String) :=
  bs.map fun p => (p.2.language, p.2.content)

/-- The `Message` struct of src/app.rs: the role is the free-form string the
source stores (`"user"` / `"assistant"`). -/
structure Message where
  role : String
  content : String
  deriving DecidableEq

/-- The `Chat` struct of src/app.rs. -/
structure Chat where
  id : String
  title : String
  messages : List Message
  model : String
  streaming : Bool
  deriving DecidableEq

/-- A registered stream (`StreamTask` of src/app.rs): the fragments currently
buffered in its channel, and whether the channel is closed. -/
structure StreamTask where
  chatId : String
  pending : List String
  closed : Bool
  deriving DecidableEq

/-- A styled display line of the document cache, abstracted to its kind and
textual payload.  `blank` is a `Line::raw("")` (empty span list, the kind the
trailing-separator pop of `draw_chat` tests for); wrapped plain text keeps
its role styling; code blocks render as top border (with language label),
one `codeLine` per source line, and a bottom border carrying the block's
ordinal for the copy-shortcut hint. -/
inductive DisplayLine where
  | blank
  | textLine (role : String) (s : String)
  | topBorder (lang : String)
  | codeLine (s : String)
  | bottomBorder (ordinal : Nat)
  | ellipsisMark
  | loadingLine
  deriving DecidableEq

/-- The fields of the `App` struct (src/app.rs) that the streaming document
engine reads and writes.  `chatScroll` is the `u16` scroll offset (sentinel
`u16::MAX = 65535`); `lineCache` is the per-message `(lines, is_truncated)`
cache; `truncatedMessages` is the `HashSet<usize>` of collapsible messages;
`displayBufferLen` is `display_buffer_text_content.len()`, the flattened line
count the half-page navigation consults. -/
structure SApp where
  chats : List Chat
  streamTasks : List StreamTask
  codeBlocks : List (Nat × CodeBlock)
  truncatedMessages : List Nat
  needRebuildCache : Bool
  cursorLine : Nat
  chatScroll : Nat
  lineCache : List (List DisplayLine × Bool)
  displayBufferLen : Nat
  deriving DecidableEq

/-- `HashSet::remove` on the model of `truncated_messages`. -/
def removeNat (l : List Nat) (n : Nat) : List Nat := l.filter (fun x => x != n)

/-- The per-fragment update of a chat's message list in `process_stream`
(src/app.rs): extend the last message when it is an assistant message,
otherwise append a fresh assistant message containing the fragment. -/
def appendFragment (msgs : List Message) (chunk : String) : List Message :=
  match msgs.getLast? with
  | some last =>
    if last.role = "assistant" then
      msgs.dropLast ++ [⟨last.role, last.content ++ chunk⟩]
    else msgs ++ [⟨"assistant", chunk⟩]
  | none => [⟨"assistant", chunk⟩]

/-- The body of the per-chunk `if let Some(chat) = ... find` in
`process_stream`: update the first chat whose id matches, and report
`some (removeIdx, procIdx, content)` — the pre-push `msg_idx` the code
removes from `truncated_messages`, and the `processed_chunks` entry — or
`none` when no chat matches. -/
def applyChunkToChats : List Chat → String → String →
    List Chat × Option (Nat × Nat × String)
  | [], _, _ => ([], none)
  | c :: cs, cid, chunk =>
    if c.id = cid then
      let msgIdx := c.messages.length
      match c.messages.getLast? with
      | some last =>
        if last.role = "assistant" then
          let newContent := last.content ++ chunk
          ({ c with streaming := true
                    messages := c.messages.dropLast ++ [⟨last.role, newContent⟩] } :: cs,
           some (msgIdx, msgIdx - 1, newContent))
        else
          ({ c with streaming := true
                    messages := c.messages ++ [⟨"assistant", chunk⟩] } :: cs,
           some (msgIdx, msgIdx, chunk))
      | none =>
        ({ c with streaming := true
                  messages := [⟨"assistant", chunk⟩] } :: cs,
         some (0, 0, chunk))
    else
      let p := applyChunkToChats cs cid chunk
      (c :: p.1, p.2)

/-- Accumulator threaded through the drain loop of `process_stream`. -/
structure DrainAcc where
  chats : List Chat
  truncated : List Nat
  needRebuild : Bool
  updated : Bool
  processed : List (Nat × String)
  deriving DecidableEq

/-- Draining all currently buffered fragments of one stream
(`while let Ok(chunk) = task.rx.try_recv()` in `process_stream`). -/
def drainChunks (cid : String) : List String → DrainAcc → DrainAcc
  | [], acc => acc
  | ch :: rest, acc =>
    let p := applyChunkToChats acc.chats cid ch
    match p.2 with
    | some (rIdx, pIdx, content) =>
      drainChunks cid rest
        { chats := p.1
          truncated := removeNat acc.truncated rIdx
          needRebuild := true
          updated := true
          processed := acc.processed ++ [(pIdx, content)] }
    | none => drainChunks cid rest { acc with chats := p.1 }

/-- On stream closure, `process_stream` clears the streaming flag of the
first chat whose id matches. -/
def setStreamingFalse : List Chat → String → List Chat
  | [], _ => []
  | c :: cs, cid =>
    if c.id = cid then { c with streaming := false } :: cs
    else c :: setStreamingFalse cs cid

/-- The task loop of `process_stream`: drain each registered stream, then
deregister closed streams (clearing the owning chat's streaming flag).
Returns the surviving tasks (their channels drained) and the accumulator. -/
def processTasks : List StreamTask → DrainAcc → List StreamTask × DrainAcc
  | [], acc => ([], acc)
  | t :: ts, acc =>
    let d := drainChunks t.chatId t.pending acc
    let d2 := if t.closed then { d with chats := setStreamingFalse d.chats t.chatId }
      else d
    let keep : List StreamTask :=
      if t.closed then [] else [{ t with pending := [] }]
    let r := processTasks ts d2
    (keep ++ r.1, r.2)

/-- `App::jump_to_last_message` (src/app.rs): recompute the flattened total
from the line cache (lines, plus one for an ellipsis marker, plus one
separator per entry), put the cursor on the last line, and set the scroll
offset to the `u16::MAX` follow-bottom sentinel. -/
def jumpToLastMessage (s : SApp) : SApp :=
  let total := s.lineCache.foldl
    (fun acc e => acc + e.1.length + (if e.2 then 1 else 0) + 1) 0
  { s with cursorLine := if total > 0 then total - 1 else 0
           chatScroll := 65535 }

/-- `App::process_stream` (src/app.rs): drain every registered stream,
re-scan each processed message's full content for code blocks and append the
results to `code_blocks`, and jump to the last message when any content
arrived. -/
def processStream (s : SApp) : SApp :=
  let r := processTasks s.streamTasks
    ⟨s.chats, s.truncatedMessages, s.needRebuildCache, false, []⟩
  let newBlocks := r.2.processed.foldl
    (fun acc pc => acc ++ parseCodeBlocksHelper pc.1 pc.2) []
  let s1 := { s with
    streamTasks := r.1
    chats := r.2.chats
    truncatedMessages := r.2.truncated
    needRebuildCache := r.2.needRebuild
    codeBlocks := s.codeBlocks ++ newBlocks }
  if r.2.updated then jumpToLastMessage s1 else s1

/-- The per-segment body of the cache rebuild in `draw_chat` (src/ui.rs):
plain-text segments are word-wrapped (external `textwrap::wrap`, passed in as
`wrapFn`) and truncated to `MAX_VISIBLE_LINES_PER_MESSAGE = 10` wrapped lines
when the message is in `truncated_messages`; code segments render as a blank
padding line, a top border with the language label (`"code"` when absent),
one line per code source line, a bottom border carrying the block ordinal,
and another blank padding line.  Returns the cache entry
`(lines, is_truncated)`. -/
def buildSegments (wrapFn : String → Nat → List String) (width : Nat)
    (truncated : List Nat) (msgIdx : Nat) (role : String) :
    List MessageSegment → Nat → List DisplayLine × Bool
  | [], _ => ([], false)
  | seg :: rest, ordinal =>
    match seg with
    | .text t =>
      let wrapped := wrapFn t (max width 1)
      let isTrunc := truncated.contains msgIdx && wrapped.length > 10
      let shown := if isTrunc then wrapped.take 10 else wrapped
      let r := buildSegments wrapFn width truncated msgIdx role rest ordinal
      (shown.map (DisplayLine.textLine role) ++ r.1, isTrunc || r.2)
    | .code lang c =>
      let langDisplay := lang.getD "code"
      let codeLines := (rustLines c).map DisplayLine.codeLine
      let r := buildSegments wrapFn width truncated msgIdx role rest (ordinal + 1)
      ([DisplayLine.blank, DisplayLine.topBorder langDisplay] ++ codeLines ++
        [DisplayLine.bottomBorder ordinal, DisplayLine.blank] ++ r.1, r.2)

/-- One message's cache entry, as `draw_chat` rebuilds it. -/
def buildMessageEntry (wrapFn : String → Nat → List String) (width : Nat)
    (truncated : List Nat) (msgIdx : Nat) (role content : String) :
    List DisplayLine × Bool :=
  buildSegments wrapFn width truncated msgIdx role
    (parseMessageSegments content) 0

/-- The code-block records `draw_chat` (src/ui.rs) pushes while rebuilding:
after clearing `code_blocks` it records, for every non-system message (the
original message index counts system messages), one `(msg_idx, content)`
entry per code segment of the message's current text, in order. -/
def drawRecordsAux (idx : Nat) : List Message → List (Nat × String)
  | [] => []
  | m :: ms =>
    (if m.role == "system" then []
     else (codeSegsOf (parseMessageSegments m.content)).map (fun c => (idx, c.2)))
      ++ drawRecordsAux (idx + 1) ms

/-- All code-block records of a full cache rebuild. -/
def drawRebuildRecords (msgs : List Message) : List (Nat × String) :=
  drawRecordsAux 0 msgs

/-- Whether a display line has an empty span list — exactly the
`Line::raw("")` separators and padding lines, which is what the
trailing-separator pop of `draw_chat` tests with `l.spans.is_empty()`. -/
def isBlankDisplay : DisplayLine → Bool
  | .blank => true
  | _ => false

/-- The flatten loop of `draw_chat`: each cache entry contributes its lines,
an ellipsis marker when truncated, and one blank separator line. -/
def flattenCache (cache : List (List DisplayLine × Bool)) : List DisplayLine :=
  cache.foldl
    (fun acc e =>
      acc ++ e.1 ++ (if e.2 then [DisplayLine.ellipsisMark] else [])
        ++ [DisplayLine.blank]) []

/-- The `show_loading` computation of `draw_chat` (src/ui.rs): a loading line
is shown while streaming when the last non-system message is an assistant
message whose trimmed content is empty, or when there is no non-system
message at all. -/
def showLoading (chat : Chat) : Bool :=
  match chat.messages.reverse.find? (fun m => !(m.role == "system")) with
  | some m => m.role == "assistant" && (strTrim m.content).isEmpty
  | none => (!chat.messages.isEmpty && chat.messages.all (fun m => m.role == "system"))
      || chat.messages.isEmpty

/-- The flattened display buffer of `draw_chat` for the displayed chat: the
flattened cache, with the trailing blank separator popped when not
streaming, and the loading line appended when streaming and `show_loading`
holds. -/
def drawBuffer (chat : Chat) (cache : List (List DisplayLine × Bool)) :
    List DisplayLine :=
  let buf := flattenCache cache
  let buf2 :=
    if !chat.streaming && !buf.isEmpty &&
        (buf.getLast?.map isBlankDisplay).getD false then
      buf.dropLast
    else buf
  if chat.streaming && showLoading chat then buf2 ++ [DisplayLine.loadingLine]
  else buf2

/-- `buffer_lines.len()` of `draw_chat`. -/
def totalDrawLines (chat : Chat) (cache : List (List DisplayLine × Bool)) : Nat :=
  (drawBuffer chat cache).length

/-- The cursor/scroll clamping of `draw_chat` (src/ui.rs, after the buffer is
built): clamp the cursor below the total when the total is positive, resolve
the `u16::MAX` sentinel or an overlarge scroll to the maximum scroll, adjust
the scroll so the cursor is visible, and finally clamp the scroll to
`max_chat_scroll`.  `u16` casts truncate (`% 65536`). -/
def drawClamp (totalLines viewportHeight cursor scroll : Nat) : Nat × Nat :=
  let cursor2 := if totalLines > 0 && cursor ≥ totalLines then totalLines - 1
    else cursor
  let maxScroll := totalLines - viewportHeight
  let maxChatScroll := maxScroll % 65536
  let scroll2 := if scroll = 65535 || scroll > maxScroll then maxChatScroll
    else scroll
  let scroll3 :=
    if cursor2 < scroll2 then cursor2 % 65536
    else if cursor2 ≥ scroll2 + viewportHeight then
      (cursor2 + 1 - viewportHeight) % 65536
    else scroll2
  (cursor2, min scroll3 maxChatScroll)

/-- The chat-focused navigation commands of `handle_key` (src/main.rs,
`Mode::Normal` with chat focus). -/
inductive NavCmd where
  | down
  | up
  | halfDown
  | halfUp
  | top
  | bottom
  | pageUp
  | pageDown
  deriving DecidableEq

/-- `handle_key` (src/main.rs) on a navigation command with chat focus:
`j`/`k` move by one line with saturating arithmetic and no upper clamp;
Ctrl-d/Ctrl-u move by a half page of the hardcoded 10-line viewport, the
downward move clamping to the display buffer's last line; `g` jumps to the
top; `G` calls `jump_to_last_message`; PageUp/PageDown move by 10 with no
upper clamp. -/
def handleNav : NavCmd → SApp → SApp
  | .down, s => { s with cursorLine := s.cursorLine + 1 }
  | .up, s => { s with cursorLine := s.cursorLine - 1 }
  | .halfDown, s =>
    let viewportHeight := 10
    let halfPage := max (max viewportHeight 1 / 2) 1
    { s with
      cursorLine := min (s.cursorLine + halfPage) (s.displayBufferLen - 1) }
  | .halfUp, s =>
    let viewportHeight := 10
    let halfPage := max (max viewportHeight 1 / 2) 1
    { s with cursorLine := s.cursorLine - halfPage }
  | .top, s => { s with cursorLine := 0 }
  | .bottom, s => jumpToLastMessage s
  | .pageUp, s => { s with cursorLine := s.cursorLine - 10 }
  | .pageDown, s => { s with cursorLine := s.cursorLine + 10 }

/-- `str::repeat`: the mask glyph of `mask_api_key` is the empty string
repeated once per hidden character. -/
def strRepeat (s : String) (n : Nat) : String :=
  String.join (List.replicate n s)

/-- `mask_api_key` (src/ui.rs): keys of length at most 4 are fully masked;
longer keys are split 4 characters from the end and the head is replaced by
the (empty) mask glyph. -/
def maskApiKey (k : String) : String :=
  if k.length ≤ 4 then strRepeat "" k.length
  else
    let head := k.data.take (k.length - 4)
    let tail := k.data.drop (k.length - 4)
    strRepeat "" head.length ++ String.mk tail

/-- The concatenation `f1 ++ .. ++ fn` of a fragment sequence. -/
def strConcat : List String → String
  | [] => ""
  | f :: fs => f ++ strConcat fs

/-- Pure scan of the extractor state across a line list: the line index and
`ScanMode` the extractor is in after consuming the lines, starting from the
given index and mode. -/
def scanAfter : Nat → ScanMode → List String → Nat × ScanMode
  | idx, mode, [] => (idx, mode)
  | idx, .outside, l :: ls =>
    match openingCapture l with
    | some lang => scanAfter (idx + 1) (.inside lang idx []) ls
    | none => scanAfter (idx + 1) .outside ls
  | idx, .inside lang start acc, l :: ls =>
    if isClosingFence l then scanAfter (idx + 1) .outside ls
    else scanAfter (idx + 1) (.inside lang start (l :: acc)) ls

/-! ### Concrete states used by witnesses and counterexamples -/

/-- A wrap function returning the text as a single line (plain text never
wraps in the concrete scenarios that use it). -/
def cexWrapId : String → Nat → List String := fun s _ => [s]

/-- A wrap function that wraps any text into 11 display lines, exceeding the
10-line truncation cap. -/
def cexWrap11 : String → Nat → List String := fun s _ => List.replicate 11 s

/-- One-message chat used by the C3 counterexample. -/
def cexChat3 : Chat := ⟨"a", "t", [⟨"assistant", "hi"⟩], "m", false⟩

/-- Its one-entry line cache: a single one-line entry, not truncated. -/
def cexCache3 : List (List DisplayLine × Bool) :=
  [([DisplayLine.textLine "assistant" "hi"], false)]

/-- App state at the bottom of that one-line document. -/
def cexApp3 : SApp :=
  { chats := [cexChat3]
    streamTasks := []
    codeBlocks := []
    truncatedMessages := []
    needRebuildCache := false
    cursorLine := 0
    chatScroll := 0
    lineCache := cexCache3
    displayBufferLen := 1 }

/-- App state for the C6 failing input: the in-progress assistant message at
index 1 has been toggled into `truncated_messages`, and one more fragment is
buffered for it. -/
def cexApp6 : SApp :=
  { chats := [⟨"a", "t", [⟨"user", "u"⟩, ⟨"assistant", "x"⟩], "m", true⟩]
    streamTasks := [⟨"a", ["y"], false⟩]
    codeBlocks := []
    truncatedMessages := [1]
    needRebuildCache := false
    cursorLine := 0
    chatScroll := 65535
    lineCache := []
    displayBufferLen := 0 }

/-- State used by the C5 counterexample and the C5/C8 witnesses: the user
has scrolled to offset 3 of a 12-line document while one fragment is
buffered for the displayed chat. -/
def cexChat5 : Chat := ⟨"a", "t", [⟨"user", "u"⟩], "m", false⟩

def cexCache5 : List (List DisplayLine × Bool) :=
  [(List.replicate 11 (DisplayLine.textLine "user" "u"), false)]

def cexApp5 : SApp :=
  { chats := [cexChat5]
    streamTasks := [⟨"a", ["x"], false⟩]
    codeBlocks := []
    truncatedMessages := []
    needRebuildCache := false
    cursorLine := 0
    chatScroll := 3
    lineCache := cexCache5
    displayBufferLen := 12 }

/-- State used by the C8 witness: a fragment buffered for id `gone` while
only a chat with id `b` exists. -/
def cexApp8 : SApp :=
  { chats := [⟨"b", "t", [⟨"user", "u"⟩], "m", false⟩]
    streamTasks := [⟨"gone", ["x"], true⟩]
    codeBlocks := []
    truncatedMessages := [5]
    needRebuildCache := false
    cursorLine := 2
    chatScroll := 7
    lineCache := [([DisplayLine.textLine "user" "u"], false)]
    displayBufferLen := 2 }

/-- Fresh conversation with two buffered fragments, for the C1 witness. -/
def witChat1 : Chat := ⟨"w1", "t", [⟨"user", "u"⟩], "m", false⟩

def witApp1 : SApp :=
  { chats := [witChat1]
    streamTasks := [⟨"w1", ["he", "llo"], false⟩]
    codeBlocks := []
    truncatedMessages := []
    needRebuildCache := false
    cursorLine := 0
    chatScroll := 65535
    lineCache := []
    displayBufferLen := 0 }

/-- State used by the C4 counterexample: one code block streamed in two
fragments, so `process_stream` re-scans the message once per fragment. -/
def cexApp4 : SApp :=
  { chats := [⟨"a", "t", [], "m", false⟩]
    streamTasks := [⟨"a", ["```py\nx", "\n```"], false⟩]
    codeBlocks := []
    truncatedMessages := []
    needRebuildCache := false
    cursorLine := 0
    chatScroll := 65535
    lineCache := []
    displayBufferLen := 0 }

/-! ### General lemmas about the embedding -/

theorem strRepeat_empty (n : Nat) : strRepeat "" n = "" := by
  induction n with
  | zero => rfl
  | succ k ih =>
    simpa [strRepeat, List.replicate, String.join] using ih

theorem empty_append_str (s : String) : "" ++ s = s := by
  apply String.ext
  simp [String.data_append]

/-! ### C10: mask_api_key reveals at most the last four characters -/

/-- C10: `mask_api_key` maps any key of length at most 4 to the empty
string, and any longer key to exactly its last 4 characters with nothing
substituted for the prefix, so two keys of equal length sharing their last
4 characters are masked identically. -/
theorem C10_mask_api_key :
    (∀ k : String, k.length ≤ 4 → maskApiKey k = "") ∧
    (∀ k : String, 4 < k.length →
      maskApiKey k = String.mk (k.data.drop (k.length - 4))) ∧
    (∀ k₁ k₂ : String, k₁.length = k₂.length →
      k₁.data.drop (k₁.length - 4) = k₂.data.drop (k₂.length - 4) →
      maskApiKey k₁ = maskApiKey k₂) := by
  have hshort : ∀ k : String, k.length ≤ 4 → maskApiKey k = "" := by
    intro k hk
    simp [maskApiKey, hk, strRepeat_empty]
  have hlong : ∀ k : String, 4 < k.length →
      maskApiKey k = String.mk (k.data.drop (k.length - 4)) := by
    intro k hk
    have hnot : ¬ k.length ≤ 4 := by omega
    simp only [maskApiKey, hnot, if_false, strRepeat_empty]
    exact empty_append_str _
  refine ⟨hshort, hlong, ?_⟩
  intro k₁ k₂ hlen htail
  by_cases h : k₁.length ≤ 4
  · rw [hshort k₁ h, hshort k₂ (by omega)]
  · rw [hlong k₁ (by omega), hlong k₂ (by omega), htail]

theorem C10_mask_api_key_witness :
    maskApiKey "abc" = "" ∧
    maskApiKey "sk-abcd0001" = maskApiKey "zz-efgh0001" := by
  exact ⟨C10_mask_api_key.1 "abc" (by decide),
    C10_mask_api_key.2.2 "sk-abcd0001" "zz-efgh0001" (by decide) (by decide)⟩

/-! ### C3: cursor and scroll bounds -/

/-- C3 (amended): the clamping that `draw_chat` performs on every render
pass — the pass that follows each navigation command or shrinking mutation —
leaves the cursor strictly below the flattened total whenever the total is
positive, and leaves the scroll offset at most `total - viewport_height`
(saturating).  Immediately after a navigation command itself the cursor may
exceed the total, and on an empty document the cursor is left unchanged
rather than reset to 0 (see the counterexample). -/
theorem C3_draw_clamp_invariant (total viewport cursor scroll : Nat) :
    (0 < total → (drawClamp total viewport cursor scroll).1 < total) ∧
    (drawClamp total viewport cursor scroll).2 ≤ total - viewport := by
  constructor
  · intro hpos
    simp only [drawClamp]
    split
    · omega
    · rename_i h
      simp only [Bool.and_eq_true, decide_eq_true_eq, not_and] at h
      rcases Nat.lt_or_ge cursor total with hc | hc
      · exact hc
      · exact absurd (h (by simpa using hpos)) (by simpa using hc)
  · simp only [drawClamp]
    calc min _ ((total - viewport) % 65536) ≤ (total - viewport) % 65536 :=
          Nat.min_le_right _ _
      _ ≤ total - viewport := Nat.mod_le _ _

theorem C3_draw_clamp_invariant_witness :
    (0 < 2 → (drawClamp 2 1 5 65535).1 < 2) ∧
    (drawClamp 2 1 5 65535).2 ≤ 2 - 1 :=
  C3_draw_clamp_invariant 2 1 5 65535

/-- C3 counterexample: a `j` navigation command at the bottom of a one-line
document moves the cursor to index 1 with no clamp, so immediately after the
command the cursor is not `< total_lines`; and on an empty document the draw
clamp leaves a stale cursor untouched instead of resetting it to 0. -/
theorem C3_cursor_counterexample :
    (handleNav NavCmd.down cexApp3).cursorLine =
        totalDrawLines cexChat3 cexCache3 ∧
    ¬ (handleNav NavCmd.down cexApp3).cursorLine <
        totalDrawLines cexChat3 cexCache3 ∧
    (drawClamp 0 5 7 0).1 = 7 ∧ (drawClamp 0 5 7 0).1 ≠ 0 := by
  refine ⟨by decide, by decide, by decide, by decide⟩

/-! ### C9: the streamed single-code-block scenario -/

/-- C9 (amended): for the message text three-backticks+py / print(1) /
three-backticks, the extractor returns exactly one block with language `py`
and content `print(1)`, and the cache entry for the message renders the code
block as exactly five display lines — a blank padding line, the top border,
one code line, the bottom border, and another blank padding line — for every
wrap function (there are no plain-text segments to wrap). -/
theorem C9_streamed_code_block (wrapFn : String → Nat → List String) :
    parseCodeBlocksHelper 1 "```py\nprint(1)\n```" =
      [(1, ⟨"print(1)", some "py", 1, 1⟩)] ∧
    buildMessageEntry wrapFn 80 [] 1 "assistant" "```py\nprint(1)\n```" =
      ([DisplayLine.blank, DisplayLine.topBorder "py",
        DisplayLine.codeLine "print(1)", DisplayLine.bottomBorder 0,
        DisplayLine.blank], false) := by
  exact ⟨rfl, rfl⟩

/-- C9 counterexample: the cache entry for that message has five display
lines, not three, although the message has no plain-text segments at all —
the two extra lines are the unconditional blank padding around every
rendered code block. -/
theorem C9_counterexample :
    (buildMessageEntry cexWrapId 80 [] 1 "assistant"
        "```py\nprint(1)\n```").1.length = 5 ∧
    (buildMessageEntry cexWrapId 80 [] 1 "assistant"
        "```py\nprint(1)\n```").1.length ≠ 3 ∧
    parseMessageSegments "```py\nprint(1)\n```" =
      [MessageSegment.code (some "py") "print(1)"] := by
  refine ⟨rfl, by decide, rfl⟩

/-! ### C1: streamed fragments build exactly one assistant message -/

theorem appendFragment_fresh (msgs : List Message) (chunk : String)
    (h : ∀ m, msgs.getLast? = some m → ¬ m.role = "assistant") :
    appendFragment msgs chunk = msgs ++ [⟨"assistant", chunk⟩] := by
  unfold appendFragment
  rcases hlast : msgs.getLast? with _ | last
  · simp [List.getLast?_eq_none_iff.mp hlast]
  · simp [h last hlast]

theorem append_str_empty (s : String) : s ++ "" = s := by
  apply String.ext
  simp [String.data_append]

theorem foldl_appendFragment_assistant (fs : List String) (ms : List Message)
    (c : String) :
    fs.foldl appendFragment (ms ++ [⟨"assistant", c⟩]) =
      ms ++ [⟨"assistant", c ++ strConcat fs⟩] := by
  induction fs generalizing c with
  | nil => simp [strConcat, append_str_empty]
  | cons f fs ih =>
    have hstep : appendFragment (ms ++ [⟨"assistant", c⟩]) f =
        ms ++ [⟨"assistant", c ++ f⟩] := by
      unfold appendFragment
      simp
    rw [List.foldl_cons, hstep, ih (c ++ f), strConcat]
    simp [String.append_assoc]

theorem foldl_appendFragment_fresh (f : String) (fs : List String)
    (msgs : List Message)
    (h : ∀ m, msgs.getLast? = some m → ¬ m.role = "assistant") :
    (f :: fs).foldl appendFragment msgs =
      msgs ++ [⟨"assistant", strConcat (f :: fs)⟩] := by
  rw [List.foldl_cons, appendFragment_fresh msgs f h,
    foldl_appendFragment_assistant, strConcat]

theorem applyChunk_split (pre post : List Chat) (c : Chat) (cid chunk : String)
    (hpre : ∀ c' ∈ pre, c'.id ≠ cid) (hcid : c.id = cid) :
    ∃ info, applyChunkToChats (pre ++ c :: post) cid chunk =
      (pre ++ { c with streaming := true
                       messages := appendFragment c.messages chunk } :: post,
       some info) := by
  induction pre with
  | nil =>
    simp only [List.nil_append, applyChunkToChats, if_pos hcid]
    rcases hlast : c.messages.getLast? with _ | last
    · have hmsgs : c.messages = [] := List.getLast?_eq_none_iff.mp hlast
      refine ⟨(0, 0, chunk), ?_⟩
      simp [appendFragment, hlast, hmsgs]
    · by_cases hrole : last.role = "assistant"
      · refine ⟨(c.messages.length, c.messages.length - 1,
          last.content ++ chunk), ?_⟩
        simp [appendFragment, hlast, hrole]
      · refine ⟨(c.messages.length, c.messages.length, chunk), ?_⟩
        simp [appendFragment, hlast, hrole]
  | cons p ps ih =>
    have hp : ¬ p.id = cid := hpre p (by simp)
    obtain ⟨info, heq⟩ := ih (fun c' hc' => hpre c' (by simp [hc']))
    exact ⟨info, by simp [applyChunkToChats, hp, heq]⟩

theorem drainChunks_split (cid : String) (fs : List String)
    (pre post : List Chat) :
    ∀ (acc : DrainAcc) (c : Chat), (∀ c' ∈ pre, c'.id ≠ cid) → c.id = cid →
    acc.chats = pre ++ c :: post →
    (drainChunks cid fs acc).chats =
      pre ++ { c with streaming := if fs.isEmpty then c.streaming else true
                      messages := fs.foldl appendFragment c.messages } :: post := by
  induction fs with
  | nil =>
    intro acc c _ _ hacc
    simpa [drainChunks] using hacc
  | cons f fs ih =>
    intro acc c hpre hcid hacc
    obtain ⟨info, heq⟩ := applyChunk_split pre post c cid f hpre hcid
    simp only [drainChunks, hacc, heq]
    refine (ih _ { c with streaming := true
                          messages := appendFragment c.messages f }
      hpre hcid rfl).trans ?_
    simp

theorem setStreamingFalse_split (pre post : List Chat) (c : Chat) (cid : String)
    (hpre : ∀ c' ∈ pre, c'.id ≠ cid) (hcid : c.id = cid) :
    setStreamingFalse (pre ++ c :: post) cid =
      pre ++ { c with streaming := false } :: post := by
  induction pre with
  | nil => simp [setStreamingFalse, hcid]
  | cons p ps ih =>
    have hp : ¬ p.id = cid := hpre p (by simp)
    simp [setStreamingFalse, hp, ih (fun c' hc' => hpre c' (by simp [hc']))]

theorem jump_preserves_chats (b : Bool) (s : SApp) :
    (if b = true then jumpToLastMessage s else s).chats = s.chats := by
  cases b <;> simp [jumpToLastMessage]

/-- C1: draining a stream of fragments `f1..fn` (n ≥ 1) into a conversation
whose last message is not an assistant message (the code's criterion for
"no in-progress assistant message") appends exactly one new assistant
message whose content is the concatenation `f1 ++ .. ++ fn`, leaving all
prior messages and all other conversations untouched; and the per-message
drain is fold-compatible, so splitting the fragments across successive
drain calls yields the same message list as one drain of the whole
sequence. -/
theorem C1_streaming_append (s : SApp) (cid : String) (frags : List String)
    (closed : Bool) (pre post : List Chat) (c : Chat)
    (hT : s.streamTasks = [⟨cid, frags, closed⟩])
    (hchats : s.chats = pre ++ c :: post)
    (hpre : ∀ c' ∈ pre, c'.id ≠ cid)
    (hcid : c.id = cid)
    (hlast : ∀ m, c.messages.getLast? = some m → ¬ m.role = "assistant")
    (hne : frags ≠ []) :
    (processStream s).chats =
      pre ++ { c with streaming := !closed
                      messages := c.messages ++
                        [⟨"assistant", strConcat frags⟩] } :: post ∧
    (∀ (msgs : List Message) (fs1 fs2 : List String),
      (fs1 ++ fs2).foldl appendFragment msgs =
        fs2.foldl appendFragment (fs1.foldl appendFragment msgs)) := by
  refine ⟨?_, fun msgs fs1 fs2 => by rw [List.foldl_append]⟩
  rcases frags with _ | ⟨f, fs⟩
  · exact absurd rfl hne
  have hdrain := drainChunks_split cid (f :: fs) pre post
    ⟨s.chats, s.truncatedMessages, s.needRebuildCache, false, []⟩ c
    hpre hcid hchats
  rw [foldl_appendFragment_fresh f fs c.messages hlast] at hdrain
  simp only [List.isEmpty_cons, if_false, Bool.false_eq_true] at hdrain
  rcases hclosed : closed with _ | _
  · simp only [processStream, processTasks, hT, hclosed, jump_preserves_chats]
    simpa using hdrain
  · simp only [processStream, processTasks, hT, hclosed, jump_preserves_chats]
    simp only [if_pos trivial, Bool.not_true]
    rw [hdrain]
    exact setStreamingFalse_split pre post _ cid hpre hcid

theorem C1_streaming_append_witness :
    (processStream witApp1).chats =
      [⟨"w1", "t", [⟨"user", "u"⟩, ⟨"assistant", "hello"⟩], "m", true⟩] := by
  have h := (C1_streaming_append witApp1 "w1" ["he", "llo"] false [] [] witChat1
    rfl rfl (by simp) rfl
    (by intro m hm; simp [witChat1] at hm; simp [← hm])
    (by simp)).1
  rw [h]
  decide

/-! ### C8: fragments for a deleted conversation are a no-op -/

theorem applyChunk_not_found (chats : List Chat) (cid chunk : String)
    (h : ∀ c ∈ chats, c.id ≠ cid) :
    applyChunkToChats chats cid chunk = (chats, none) := by
  induction chats with
  | nil => rfl
  | cons c cs ih =>
    have hc : ¬ c.id = cid := h c (by simp)
    simp [applyChunkToChats, hc, ih (fun c' hc' => h c' (by simp [hc']))]

theorem drainChunks_not_found (cid : String) (chunks : List String)
    (acc : DrainAcc) (h : ∀ c ∈ acc.chats, c.id ≠ cid) :
    drainChunks cid chunks acc = acc := by
  induction chunks with
  | nil => rfl
  | cons ch rest ih =>
    simp [drainChunks, applyChunk_not_found acc.chats cid ch h, ih]

theorem setStreamingFalse_not_found (chats : List Chat) (cid : String)
    (h : ∀ c ∈ chats, c.id ≠ cid) :
    setStreamingFalse chats cid = chats := by
  induction chats with
  | nil => rfl
  | cons c cs ih =>
    have hc : ¬ c.id = cid := h c (by simp)
    simp [setStreamingFalse, hc, ih (fun c' hc' => h c' (by simp [hc']))]

/-- C8: a buffered fragment whose conversation id matches no existing chat
is dropped without modifying any conversation, message, code-block record,
truncation set, cache flag, cursor, scroll, or line cache (the exhausted
stream registration itself is the only thing that can change). -/
theorem C8_missing_conversation (s : SApp) (cid : String)
    (chunks : List String) (closed : Bool)
    (hT : s.streamTasks = [⟨cid, chunks, closed⟩])
    (h : ∀ c ∈ s.chats, c.id ≠ cid) :
    (processStream s).chats = s.chats ∧
    (processStream s).codeBlocks = s.codeBlocks ∧
    (processStream s).truncatedMessages = s.truncatedMessages ∧
    (processStream s).needRebuildCache = s.needRebuildCache ∧
    (processStream s).cursorLine = s.cursorLine ∧
    (processStream s).chatScroll = s.chatScroll ∧
    (processStream s).lineCache = s.lineCache := by
  have hdrain : drainChunks cid chunks
      ⟨s.chats, s.truncatedMessages, s.needRebuildCache, false, []⟩ =
      ⟨s.chats, s.truncatedMessages, s.needRebuildCache, false, []⟩ :=
    drainChunks_not_found cid chunks _ h
  simp [processStream, processTasks, hT, hdrain,
    setStreamingFalse_not_found s.chats cid h]

theorem C8_missing_conversation_witness :
    (processStream cexApp8).chats = cexApp8.chats ∧
    (processStream cexApp8).codeBlocks = cexApp8.codeBlocks ∧
    (processStream cexApp8).truncatedMessages = cexApp8.truncatedMessages ∧
    (processStream cexApp8).needRebuildCache = cexApp8.needRebuildCache ∧
    (processStream cexApp8).cursorLine = cexApp8.cursorLine ∧
    (processStream cexApp8).chatScroll = cexApp8.chatScroll ∧
    (processStream cexApp8).lineCache = cexApp8.lineCache :=
  C8_missing_conversation cexApp8 "gone" ["x"] true rfl (by decide)

/-! ### C5: appends force the view to the bottom -/

theorem applyChunk_found_isSome (chats : List Chat) (cid chunk : String)
    (h : ∃ c ∈ chats, c.id = cid) :
    (applyChunkToChats chats cid chunk).2.isSome = true := by
  induction chats with
  | nil => simp at h
  | cons c cs ih =>
    by_cases hc : c.id = cid
    · simp only [applyChunkToChats, if_pos hc]
      rcases hlast : c.messages.getLast? with _ | last
      · simp
      · by_cases hrole : last.role = "assistant" <;> simp [hrole]
    · have h' : ∃ c' ∈ cs, c'.id = cid := by
        rcases h with ⟨c', hm, hid⟩
        rcases List.mem_cons.mp hm with rfl | hm'
        · exact absurd hid hc
        · exact ⟨c', hm', hid⟩
      simp only [applyChunkToChats, if_neg hc]
      exact ih h'

theorem drainChunks_updated_mono (cid : String) (l : List String)
    (acc : DrainAcc) (h : acc.updated = true) :
    (drainChunks cid l acc).updated = true := by
  induction l generalizing acc with
  | nil => exact h
  | cons ch rest ih =>
    simp only [drainChunks]
    rcases hp : (applyChunkToChats acc.chats cid ch).2 with _ | ⟨rIdx, pIdx, content⟩
    · exact ih _ h
    · exact ih _ rfl

/-- C5 (amended): whenever at least one fragment is buffered for an existing
conversation, `process_stream` unconditionally calls
`jump_to_last_message`, which sets the scroll offset to the `u16::MAX`
follow-bottom sentinel (resolved to the maximum scroll by the next draw) —
it does not check whether the current scroll equals the sentinel or the
maximum, so a user-chosen scroll offset is not preserved across appends. -/
theorem C5_append_forces_follow (s : SApp) (cid f : String) (fs : List String)
    (closed : Bool) (hT : s.streamTasks = [⟨cid, f :: fs, closed⟩])
    (h : ∃ c ∈ s.chats, c.id = cid) :
    (processStream s).chatScroll = 65535 := by
  have hfirst := applyChunk_found_isSome s.chats cid f h
  rcases hp : (applyChunkToChats s.chats cid f).2 with _ | ⟨rIdx, pIdx, content⟩
  · rw [hp] at hfirst; simp at hfirst
  · have hupd : (drainChunks cid (f :: fs)
        ⟨s.chats, s.truncatedMessages, s.needRebuildCache, false, []⟩).updated
        = true := by
      simp only [drainChunks, hp]
      exact drainChunks_updated_mono cid fs _ rfl
    have hu2 : (processTasks [⟨cid, f :: fs, closed⟩]
        ⟨s.chats, s.truncatedMessages, s.needRebuildCache, false, []⟩).2.updated
        = true := by
      simp only [processTasks]
      cases closed <;> simp [hupd]
    simp [processStream, hT, hu2, jumpToLastMessage]

theorem C5_append_forces_follow_witness :
    (processStream cexApp5).chatScroll = 65535 :=
  C5_append_forces_follow cexApp5 "a" "x" [] false rfl
    ⟨cexChat5, by decide, by decide⟩

/-- C5 counterexample: the user's scroll offset 3 is neither the sentinel
65535 nor the 11-line flattened document's maximum, yet processing one buffered
fragment replaces it with the sentinel, so the user-chosen offset is not
left unchanged by the append. -/
theorem C5_scroll_counterexample :
    cexApp5.chatScroll = 3 ∧
    cexApp5.chatScroll ≠ 65535 ∧
    totalDrawLines cexChat5 cexCache5 = 11 ∧
    (processStream cexApp5).chatScroll = 65535 := by
  refine ⟨by decide, by decide, by decide, by decide⟩

/-! ### C2: the two fence grammars -/

theorem isWordChar_not_ws (c : Char) (h : isWordChar c = true) :
    c.isWhitespace = false := by
  by_contra hws
  have hws2 : c.isWhitespace = true := by
    cases hb : c.isWhitespace
    · exact absurd hb hws
    · rfl
  have hd : ((c = ' ' ∨ c = '\t') ∨ c = '\r') ∨ c = '\n' := by
    simpa [Char.isWhitespace, or_assoc] using hws2
  rcases hd with ((rfl | rfl) | rfl) | rfl <;> exact absurd h (by decide)

theorem dropWhile_append_all {α : Type} (p : α → Bool) (a b : List α)
    (h : ∀ x ∈ a, p x = true) :
    (a ++ b).dropWhile p = b.dropWhile p := by
  induction a with
  | nil => rfl
  | cons x xs ih =>
    simp only [List.cons_append, List.dropWhile_cons, h x (by simp), if_pos]
    exact ih (fun y hy => h y (by simp [hy]))

theorem dropWhile_append_general {α : Type} (p : α → Bool) (a b : List α) :
    (a ++ b).dropWhile p =
      if (a.dropWhile p).isEmpty then b.dropWhile p
      else a.dropWhile p ++ b := by
  induction a with
  | nil => simp
  | cons x xs ih =>
    by_cases hp : p x = true
    · simpa [List.dropWhile_cons, hp] using ih
    · simp [List.dropWhile_cons, hp]

theorem fence_head_not_ws : (Char.ofNat 96).isWhitespace = false := by decide

theorem fence_reverse : fenceMarker.reverse = fenceMarker := by decide

theorem dropWhile_ws_fence_append (rest : List Char) :
    (fenceMarker ++ rest).dropWhile Char.isWhitespace = fenceMarker ++ rest := by
  simp [fenceMarker, List.dropWhile_cons, fence_head_not_ws]

theorem trim_fence_append (rest : List Char) :
    trimChars (fenceMarker ++ rest) =
      fenceMarker ++ (rest.reverse.dropWhile Char.isWhitespace).reverse := by
  unfold trimChars
  rw [dropWhile_ws_fence_append, List.reverse_append,
    dropWhile_append_general]
  have hf2 : List.dropWhile Char.isWhitespace fenceMarker = fenceMarker := by
    simpa using dropWhile_ws_fence_append []
  rcases hdrop : rest.reverse.dropWhile Char.isWhitespace with _ | ⟨y, ys⟩
  · simp [hdrop, fence_reverse, hf2]
  · simp [hdrop, List.reverse_append, fence_reverse]

theorem stripFence_isSome_iff (l : String) :
    (stripFence l).isSome = true ↔ l.data.take 3 = fenceMarker := by
  by_cases h : l.data.take 3 = fenceMarker <;> simp [stripFence, h]

theorem opening_none_of_strip_none (l : String) (h : stripFence l = none) :
    openingCapture l = none := by
  by_cases hf : l.data.take 3 = fenceMarker
  · simp [stripFence, hf] at h
  · simp [openingCapture, hf]

theorem closer_eq (l : String)
    (hb : strTrim l = String.mk fenceMarker → (stripFence l).isSome = true) :
    (strTrim l == String.mk fenceMarker) = isClosingFence l := by
  cases hcl : isClosingFence l with
  | true =>
    rw [beq_iff_eq]
    have hp : l.data.take 3 = fenceMarker ∧
        ∀ x ∈ l.data.drop 3, x.isWhitespace = true := by
      have h := hcl
      simp only [isClosingFence, Bool.and_eq_true, beq_iff_eq,
        List.all_eq_true] at h
      exact h
    have hdata : l.data = fenceMarker ++ l.data.drop 3 := by
      conv_lhs => rw [← List.take_append_drop 3 l.data]
      rw [hp.1]
    have hnil : (l.data.drop 3).reverse.dropWhile Char.isWhitespace = [] :=
      List.dropWhile_eq_nil_iff.mpr
        (fun x hx => hp.2 x (List.mem_reverse.mp hx))
    rw [strTrim, hdata, trim_fence_append, hnil]
    rfl
  | false =>
    have hne : ¬ strTrim l = String.mk fenceMarker := by
      intro heq
      have hsf : l.data.take 3 = fenceMarker :=
        (stripFence_isSome_iff l).mp (hb heq)
      have hdata : l.data = fenceMarker ++ l.data.drop 3 := by
        conv_lhs => rw [← List.take_append_drop 3 l.data]
        rw [hsf]
      rw [strTrim, hdata, trim_fence_append] at heq
      have hX : ((l.data.drop 3).reverse.dropWhile Char.isWhitespace).reverse
          = [] := by
        have hinj : fenceMarker ++
            ((l.data.drop 3).reverse.dropWhile Char.isWhitespace).reverse =
            fenceMarker := String.ext_iff.mp heq
        have hlen := congrArg List.length hinj
        simp only [List.length_append] at hlen
        have : ((l.data.drop 3).reverse.dropWhile
            Char.isWhitespace).reverse.length = 0 := by omega
        exact List.eq_nil_of_length_eq_zero this
      have hallws : ∀ x ∈ l.data.drop 3, x.isWhitespace = true := by
        intro x hx
        have hnil : (l.data.drop 3).reverse.dropWhile Char.isWhitespace
            = [] := by
          simpa using congrArg List.reverse hX
        exact List.dropWhile_eq_nil_iff.mp hnil x (List.mem_reverse.mpr hx)
      have hcontra : isClosingFence l = true := by
        simp only [isClosingFence, Bool.and_eq_true, beq_iff_eq,
          List.all_eq_true]
        exact ⟨hsf, hallws⟩
      rw [hcontra] at hcl
      exact absurd hcl (by simp)
    exact beq_eq_false_iff_ne.mpr hne

theorem opening_some_chars (l : String) (lang : Option String)
    (hoc : openingCapture l = some lang) :
    l.data.take 3 = fenceMarker ∧
    ((l.data.drop 3).dropWhile isWordChar).all Char.isWhitespace = true ∧
    lang = (if ((l.data.drop 3).takeWhile isWordChar).isEmpty then none
            else some (String.mk ((l.data.drop 3).takeWhile isWordChar))) := by
  by_cases h1 : l.data.take 3 = fenceMarker
  · by_cases h2 : ((l.data.drop 3).dropWhile isWordChar).all Char.isWhitespace
      = true
    · refine ⟨h1, h2, ?_⟩
      simp only [openingCapture, h1, eq_self_iff_true, if_true, h2,
        Option.some.injEq] at hoc
      exact hoc.symm
    · simp [openingCapture, h1, h2] at hoc
  · simp [openingCapture, h1] at hoc

theorem dropWhile_ws_of_head_word (w : List Char)
    (hw : ∀ x ∈ w, isWordChar x = true) :
    w.dropWhile Char.isWhitespace = w := by
  rcases w with _ | ⟨c, w2⟩
  · rfl
  · simp [List.dropWhile_cons, isWordChar_not_ws c (hw c (by simp))]

theorem trimChars_all_ws (cs : List Char)
    (h : ∀ x ∈ cs, x.isWhitespace = true) : trimChars cs = [] := by
  unfold trimChars
  rw [List.dropWhile_eq_nil_iff.mpr h]
  rfl

theorem trimChars_word_ws (w r : List Char)
    (hw : ∀ x ∈ w, isWordChar x = true)
    (hr : ∀ x ∈ r, x.isWhitespace = true) :
    trimChars (w ++ r) = w := by
  by_cases hwnil : w = []
  · subst hwnil
    simpa using trimChars_all_ws r hr
  · obtain ⟨c, w2, rfl⟩ := List.exists_cons_of_ne_nil hwnil
    unfold trimChars
    have hc : c.isWhitespace = false := isWordChar_not_ws c (hw c (by simp))
    have hstep1 : ((c :: w2) ++ r).dropWhile Char.isWhitespace =
        (c :: w2) ++ r := by
      simp [List.dropWhile_cons, hc]
    rw [hstep1, List.reverse_append,
      dropWhile_append_all _ _ _ (fun x hx => hr x (List.mem_reverse.mp hx)),
      dropWhile_ws_of_head_word _
        (fun x hx => hw x (List.mem_reverse.mp hx)),
      List.reverse_reverse]

theorem opener_eq (l rest : String) (lang : Option String)
    (hsf : stripFence l = some rest) (hoc : openingCapture l = some lang) :
    (if (strTrim rest).isEmpty then none else some (strTrim rest)) = lang := by
  obtain ⟨h1, h2, hlang⟩ := opening_some_chars l lang hoc
  have hrest : rest = String.mk (l.data.drop 3) := by
    simp [stripFence, h1] at hsf
    exact hsf.symm
  subst hrest
  have hwsr : ∀ x ∈ (l.data.drop 3).dropWhile isWordChar,
      x.isWhitespace = true :=
    fun x hx => (List.all_eq_true.mp h2) x hx
  by_cases hwnil : (l.data.drop 3).takeWhile isWordChar = []
  · have hdall : ∀ x ∈ l.data.drop 3, x.isWhitespace = true := by
      intro x hx
      apply hwsr
      have hsplit := List.takeWhile_append_dropWhile (p := isWordChar)
        (l := l.data.drop 3)
      rw [hwnil, List.nil_append] at hsplit
      rw [hsplit]
      exact hx
    have htrim : (strTrim (String.mk (l.data.drop 3))).isEmpty = true := by
      rw [strTrim]
      show (String.mk (trimChars (l.data.drop 3))).isEmpty = true
      rw [trimChars_all_ws _ hdall]
      rfl
    rw [if_pos htrim, hlang, if_pos (by simp [hwnil])]
  · obtain ⟨c, w2, hw⟩ := List.exists_cons_of_ne_nil hwnil
    have hwords : ∀ x ∈ (c :: w2), isWordChar x = true := by
      intro x hx
      rw [← hw] at hx
      exact List.mem_takeWhile_imp hx
    have hsplit : l.data.drop 3 =
        (c :: w2) ++ (l.data.drop 3).dropWhile isWordChar := by
      conv_lhs => rw [← List.takeWhile_append_dropWhile (p := isWordChar)
        (l := l.data.drop 3)]
      rw [hw]
    have htrim : strTrim (String.mk (l.data.drop 3)) =
        String.mk (c :: w2) := by
      rw [strTrim]
      show String.mk (trimChars (l.data.drop 3)) = String.mk (c :: w2)
      conv_lhs => rw [hsplit]
      rw [trimChars_word_ws _ _ hwords hwsr]
    have hne : (strTrim (String.mk (l.data.drop 3))).isEmpty = false := by
      rw [htrim]
      cases hb : (String.mk (c :: w2)).isEmpty
      · rfl
      · have hmt := (String.isEmpty_iff (String.mk (c :: w2))).mp hb
        have hd := String.ext_iff.mp hmt
        simp at hd
    rw [if_neg (by simp [hne]), htrim, hlang, if_neg (by simp [hw]), hw]

theorem codeSegsOf_nil : codeSegsOf [] = [] := rfl

theorem codeSegsOf_text (s : String) (rest : List MessageSegment) :
    codeSegsOf (.text s :: rest) = codeSegsOf rest := rfl

theorem codeSegsOf_code (lang : Option String) (c : String)
    (rest : List MessageSegment) :
    codeSegsOf (.code lang c :: rest) = (lang, c) :: codeSegsOf rest := rfl

theorem codeSegsOf_append (a b : List MessageSegment) :
    codeSegsOf (a ++ b) = codeSegsOf a ++ codeSegsOf b := by
  simp [codeSegsOf]

theorem blocksLC_nil : blocksLC [] = [] := rfl

theorem blocksLC_cons (p : Nat × CodeBlock) (rest : List (Nat × CodeBlock)) :
    blocksLC (p :: rest) = (p.2.language, p.2.content) :: blocksLC rest := rfl

theorem segContent_no_match (lang : Option String) (code : List String)
    (h : ∀ w first, lang = some w → first ∈ code →
      eqIgnoreAsciiCase (strTrim first) (strTrim w) = false) :
    segContent lang code = joinNL code := by
  rcases lang with _ | w
  · rcases code with _ | ⟨f, r⟩ <;> rfl
  · rcases code with _ | ⟨f, r⟩
    · rfl
    · simp [segContent, h w f rfl (by simp)]

theorem c2_core (m : Nat) (ls : List String)
    (hA : ∀ l ∈ ls, (stripFence l).isSome = true →
      (openingCapture l).isSome = true)
    (hB : ∀ l ∈ ls, strTrim l = String.mk fenceMarker →
      (stripFence l).isSome = true)
    (hC : ∀ l ∈ ls, ∀ x ∈ ls, tagClash l x = false) :
    (∀ (cur : List String) (i : Nat),
      codeSegsOf (pmsGo (.plain cur) ls) = blocksLC (pcbGo m i .outside ls)) ∧
    (∀ (lang : Option String) (acc : List String) (start i : Nat),
      (lang = none ∨ ∃ w, lang = some w ∧
        ∀ x, (x ∈ acc ∨ x ∈ ls) →
          eqIgnoreAsciiCase (strTrim x) (strTrim w) = false) →
      codeSegsOf (pmsGo (.inCode lang acc) ls) =
        blocksLC (pcbGo m i (.inside lang start acc) ls)) := by
  induction ls with
  | nil =>
    refine ⟨?_, ?_⟩
    · intro cur i
      by_cases hcur : cur.isEmpty <;>
        simp [pmsGo, pcbGo, hcur, codeSegsOf_nil, codeSegsOf_text, blocksLC_nil]
    · intro lang acc start i hlang
      have hseg : segContent lang acc.reverse = joinNL acc.reverse := by
        apply segContent_no_match
        intro w first hw hmem
        rcases hlang with hnone | ⟨w2, hw2, hall⟩
        · rw [hnone] at hw; cases hw
        · rw [hw2] at hw
          injection hw with hww
          subst hww
          exact hall first (Or.inl (List.mem_reverse.mp hmem))
      simp [pmsGo, pcbGo, codeSegsOf_code, codeSegsOf_nil, blocksLC_cons,
        blocksLC_nil, mkBlock, hseg]
  | cons l ls ih =>
    have hA' : ∀ x ∈ ls, (stripFence x).isSome = true →
        (openingCapture x).isSome = true :=
      fun x hx => hA x (List.mem_cons_of_mem l hx)
    have hB' : ∀ x ∈ ls, strTrim x = String.mk fenceMarker →
        (stripFence x).isSome = true :=
      fun x hx => hB x (List.mem_cons_of_mem l hx)
    have hC' : ∀ a ∈ ls, ∀ b ∈ ls, tagClash a b = false :=
      fun a ha b hb =>
        hC a (List.mem_cons_of_mem l ha) b (List.mem_cons_of_mem l hb)
    obtain ⟨ihP, ihQ⟩ := ih hA' hB' hC'
    refine ⟨?_, ?_⟩
    · intro cur i
      rcases hsf : stripFence l with _ | rest
      · have hoc : openingCapture l = none := opening_none_of_strip_none l hsf
        simp only [pmsGo, hsf, pcbGo, hoc]
        exact ihP (cur ++ [l]) (i + 1)
      · have hocs : (openingCapture l).isSome = true :=
          hA l (by simp) (by simp [hsf])
        obtain ⟨lang0, hoc⟩ := Option.isSome_iff_exists.mp hocs
        have hlangeq := opener_eq l rest lang0 hsf hoc
        simp only [pmsGo, hsf, pcbGo, hoc]
        rw [codeSegsOf_append]
        have hflush : codeSegsOf (if cur.isEmpty then ([] : List MessageSegment)
            else [.text (joinNL cur)]) = [] := by
          by_cases hcur : cur.isEmpty <;>
            simp [hcur, codeSegsOf_nil, codeSegsOf_text]
        rw [hflush, List.nil_append, hlangeq]
        apply ihQ lang0 [] i (i + 1)
        rcases lang0 with _ | w
        · exact Or.inl rfl
        · refine Or.inr ⟨w, rfl, ?_⟩
          intro x hx
          rcases hx with hx | hx
          · simp at hx
          · have hcx := hC l (by simp) x (List.mem_cons_of_mem l hx)
            simp only [tagClash, hoc] at hcx
            exact hcx
    · intro lang acc start i hlang
      have hcleq : (strTrim l == String.mk fenceMarker) = isClosingFence l :=
        closer_eq l (hB l (by simp))
      cases hcl : isClosingFence l with
      | true =>
        have hrt : (strTrim l == String.mk fenceMarker) = true := by
          rw [hcleq, hcl]
        have hseg : segContent lang acc.reverse = joinNL acc.reverse := by
          apply segContent_no_match
          intro w first hw hmem
          rcases hlang with hnone | ⟨w2, hw2, hall⟩
          · rw [hnone] at hw; cases hw
          · rw [hw2] at hw
            injection hw with hww
            subst hww
            exact hall first (Or.inl (List.mem_reverse.mp hmem))
        simp only [pmsGo, hrt, if_pos, pcbGo, hcl, codeSegsOf_code,
          blocksLC_cons, mkBlock, hseg]
        exact congrArg _ (ihP [] (i + 1))
      | false =>
        have hrt : (strTrim l == String.mk fenceMarker) = false := by
          rw [hcleq, hcl]
        simp only [pmsGo, hrt, pcbGo, hcl, Bool.false_eq_true, if_false]
        apply ihQ lang (l :: acc) start (i + 1)
        rcases hlang with hnone | ⟨w, hw, hall⟩
        · exact Or.inl hnone
        · refine Or.inr ⟨w, hw, ?_⟩
          intro x hx
          rcases hx with hx | hx
          · rcases List.mem_cons.mp hx with rfl | hx2
            · exact hall x (Or.inr (by simp))
            · exact hall x (Or.inl hx2)
          · exact hall x (Or.inr (List.mem_cons_of_mem l hx))

/-- C2 (amended): the two fence grammars differ — the extractor recognises an
opening fence only as three backticks, an optional `\w`-tag, and trailing
whitespace, and a closer only as three backticks plus trailing whitespace,
while the renderer's splitter opens on any line starting with three
backticks (tag = trimmed remainder), closes on any line whose trim is
exactly three backticks, and drops a first code line that trim-matches the
tag ASCII case-insensitively.  They agree — same blocks, same language
tags, same verbatim contents — on every text in which (a) each line
starting with three backticks also matches the extractor's opening regex,
(b) every line trimming to bare backticks starts with them, and (c) no line
trim-matches the tag of any opening fence. -/
theorem C2_fence_grammar_agreement (content : String) (msgIdx : Nat)
    (hA : ∀ l ∈ rustLines content, (stripFence l).isSome = true →
      (openingCapture l).isSome = true)
    (hB : ∀ l ∈ rustLines content, strTrim l = String.mk fenceMarker →
      (stripFence l).isSome = true)
    (hC : ∀ l ∈ rustLines content, ∀ x ∈ rustLines content,
      tagClash l x = false) :
    codeSegsOf (parseMessageSegments content) =
      blocksLC (parseCodeBlocksHelper msgIdx content) :=
  (c2_core msgIdx (rustLines content) hA hB hC).1 [] 0

theorem C2_fence_grammar_agreement_witness :
    codeSegsOf (parseMessageSegments "intro\n```py\nx = 1\n```\nafter") =
      blocksLC (parseCodeBlocksHelper 0 "intro\n```py\nx = 1\n```\nafter") :=
  C2_fence_grammar_agreement "intro\n```py\nx = 1\n```\nafter" 0
    (by decide) (by decide) (by decide)

/-- C2 counterexample: on the single message text with an opening fence
tagged `c++`, the renderer's splitter produces one block with language
`c++` and content `x`, while the extractor — whose opening regex rejects
`c++` but accepts the closing line as an untagged opener — produces one
block with no language and empty content: the two grammars disagree on the
fence boundaries, the language tag, and the content. -/
theorem C2_fence_grammar_counterexample :
    codeSegsOf (parseMessageSegments "```c++\nx\n```") =
      [(some "c++", "x")] ∧
    blocksLC (parseCodeBlocksHelper 0 "```c++\nx\n```") = [(none, "")] ∧
    codeSegsOf (parseMessageSegments "```c++\nx\n```") ≠
      blocksLC (parseCodeBlocksHelper 0 "```c++\nx\n```") := by
  refine ⟨by decide, by decide, by decide⟩

/-! ### C4: code-block records, replacement versus appending -/


theorem mem_drawRecordsAux_ge (ms : List Message) :
    ∀ (k : Nat) (r : Nat × String), r ∈ drawRecordsAux k ms → k ≤ r.1 := by
  induction ms with
  | nil => intro k r hr; simp [drawRecordsAux] at hr
  | cons m ms ih =>
    intro k r hr
    simp only [drawRecordsAux, List.mem_append] at hr
    rcases hr with hr | hr
    · by_cases hs : m.role == "system"
      · simp [hs] at hr
      · rw [if_neg hs] at hr
        simp only [List.mem_map] at hr
        obtain ⟨c, _, rfl⟩ := hr
        exact Nat.le_refl k
    · exact Nat.le_of_succ_le (ih (k + 1) r hr)

theorem drawRecordsAux_filter (ms : List Message) :
    ∀ (k i : Nat) (h : i < ms.length),
    (drawRecordsAux k ms).filter (fun r => r.1 == k + i) =
      (if (ms.get ⟨i, h⟩).role == "system" then [] else
        (codeSegsOf (parseMessageSegments (ms.get ⟨i, h⟩).content)).map
          (fun c => (k + i, c.2))) := by
  induction ms with
  | nil => intro k i h; simp at h
  | cons m ms ih =>
    intro k i h
    have htail0 : ∀ j, j < k + 1 →
        (drawRecordsAux (k + 1) ms).filter (fun r => r.1 == j) = [] := by
      intro j hj
      apply List.filter_eq_nil_iff.mpr
      intro r hr
      have := mem_drawRecordsAux_ge ms (k + 1) r hr
      simp only [beq_iff_eq]
      omega
    rcases i with _ | i'
    · simp only [drawRecordsAux, List.filter_append, Nat.add_zero,
        htail0 k (by omega), List.append_nil, List.get]
      by_cases hs : m.role == "system"
      · simp [hs]
      · rw [if_neg hs]
        apply List.filter_eq_self.mpr
        intro a ha
        obtain ⟨c, _, rfl⟩ := List.mem_map.mp ha
        simp
    · have harith : k + (i' + 1) = (k + 1) + i' := by omega
      simp only [drawRecordsAux, List.filter_append, List.get]
      have hhead : (if m.role == "system" then ([] : List (Nat × String))
          else (codeSegsOf (parseMessageSegments m.content)).map
            (fun c => (k, c.2))).filter (fun r => r.1 == k + (i' + 1)) = [] := by
        apply List.filter_eq_nil_iff.mpr
        intro r hr
        by_cases hs : m.role == "system"
        · simp [hs] at hr
        · rw [if_neg hs] at hr
          simp only [List.mem_map] at hr
          obtain ⟨c, _, rfl⟩ := hr
          simp only [beq_iff_eq]
          omega
      rw [hhead, List.nil_append, harith, ih (k + 1) i' (by simpa using h)]

/-- C4 (amended): full replacement happens at the next document-cache
rebuild, not in `process_stream` itself — the rebuild clears `code_blocks`
and re-derives, for every non-system message, exactly one record per code
segment of the message's current text, so after a rebuild the records
stored for a message index are exactly the blocks of its current text;
`process_stream`, by contrast, appends each re-scan's results to the
existing list (see the counterexample). -/
theorem C4_rebuild_replaces (ms : List Message) (i : Nat) (h : i < ms.length)
    (hrole : ¬ (ms.get ⟨i, h⟩).role = "system") :
    (drawRebuildRecords ms).filter (fun r => r.1 == i) =
      (codeSegsOf (parseMessageSegments (ms.get ⟨i, h⟩).content)).map
        (fun c => (i, c.2)) := by
  have hfilter := drawRecordsAux_filter ms 0 i h
  simp only [Nat.zero_add] at hfilter
  rw [drawRebuildRecords, hfilter, if_neg (by simpa using hrole)]

theorem C4_rebuild_replaces_witness :
    (drawRebuildRecords [⟨"user", "hello"⟩, ⟨"assistant", "```py\nx\n```"⟩]).filter
        (fun r => r.1 == 1) = [(1, "x")] := by
  have h := C4_rebuild_replaces [⟨"user", "hello"⟩, ⟨"assistant", "```py\nx\n```"⟩]
    1 (by decide) (by decide)
  rw [h]
  decide

/-- C4 counterexample: streaming one code block as two fragments makes
`process_stream` run two full re-scans of the message and *append* both
result sets to `code_blocks`, so after the drain the stored records for
message 0 are two identical copies of the block — not the single block
extractable from the message's current text. -/
theorem C4_counterexample :
    (processStream cexApp4).chats =
      [⟨"a", "t", [⟨"assistant", "```py\nx\n```"⟩], "m", true⟩] ∧
    (processStream cexApp4).codeBlocks =
      [(0, ⟨"x", some "py", 1, 1⟩), (0, ⟨"x", some "py", 1, 1⟩)] ∧
    parseCodeBlocksHelper 0 "```py\nx\n```" = [(0, ⟨"x", some "py", 1, 1⟩)] ∧
    (processStream cexApp4).codeBlocks ≠
      parseCodeBlocksHelper 0 "```py\nx\n```" := by
  refine ⟨by decide, by decide, by decide, by decide⟩

/-! ### C7: unterminated fences are still emitted -/

theorem pcbGo_append (m : Nat) (xs : List String) :
    ∀ (pre : List String) (i : Nat) (mode : ScanMode),
    scanAfter i mode pre = (i + pre.length, .outside) →
    pcbGo m i mode (pre ++ xs) =
      pcbGo m i mode pre ++ pcbGo m (i + pre.length) .outside xs := by
  intro pre
  induction pre with
  | nil =>
    intro i mode h
    simp only [scanAfter] at h
    have hmode : mode = ScanMode.outside := by
      have h2 := congrArg Prod.snd h
      simpa using h2
    subst hmode
    simp [pcbGo]
  | cons l ls ih =>
    intro i mode h
    have harith : i + (l :: ls).length = (i + 1) + ls.length := by
      simp [List.length_cons]; omega
    rcases mode with _ | ⟨lang, start, acc⟩
    · rcases hop : openingCapture l with _ | lang
      · simp only [scanAfter, hop, harith] at h ⊢
        simp only [List.cons_append, pcbGo, hop]
        exact ih (i + 1) .outside h
      · simp only [scanAfter, hop, harith] at h ⊢
        simp only [List.cons_append, pcbGo, hop]
        exact ih (i + 1) (.inside lang i []) h
    · by_cases hcl : isClosingFence l
      · simp only [scanAfter, if_pos hcl, harith] at h ⊢
        simp only [List.cons_append, pcbGo, if_pos hcl, List.append_eq]
        rw [ih (i + 1) .outside h]
      · simp only [scanAfter, if_neg hcl, harith] at h ⊢
        simp only [List.cons_append, pcbGo, if_neg hcl]
        exact ih (i + 1) (.inside lang start (l :: acc)) h

theorem pcbGo_no_closing (m : Nat) :
    ∀ (rest : List String) (j : Nat) (lang : Option String) (start : Nat)
      (acc : List String), (∀ l ∈ rest, isClosingFence l = false) →
    pcbGo m j (.inside lang start acc) rest =
      [(m, ⟨joinNL (acc.reverse ++ rest), lang, start + 1,
        (j + rest.length) - 1⟩)] := by
  intro rest
  induction rest with
  | nil => intro j lang start acc _; simp [pcbGo, mkBlock]
  | cons l ls ih =>
    intro j lang start acc h
    have hcl : isClosingFence l = false := h l (by simp)
    simp only [pcbGo, hcl, Bool.false_eq_true, if_false]
    rw [ih (j + 1) lang start (l :: acc) (fun x hx => h x (by simp [hx]))]
    have : (l :: acc).reverse ++ ls = acc.reverse ++ (l :: ls) := by
      simp
    rw [this]
    have : (j + 1) + ls.length = j + (l :: ls).length := by
      simp [List.length_cons]; omega
    rw [this]

/-- C7: when the extractor's scan reaches an opening fence (after a balanced
prefix) and no later line matches the closing regex, it still emits exactly
one block for that fence, whose content is every line after the opening
fence line joined verbatim, spanning to the last line of the text; the
extractor is a total function, so no input can make it panic. -/
theorem C7_unterminated_fence (content : String) (msgIdx : Nat)
    (pre rest : List String) (openL : String) (lang : Option String)
    (hlines : rustLines content = pre ++ openL :: rest)
    (hbal : scanAfter 0 .outside pre = (pre.length, .outside))
    (hopen : openingCapture openL = some lang)
    (hnc : ∀ l ∈ rest, isClosingFence l = false) :
    parseCodeBlocksHelper msgIdx content =
      pcbGo msgIdx 0 .outside pre ++
        [(msgIdx, ⟨joinNL rest, lang, pre.length + 1,
          pre.length + rest.length⟩)] := by
  rw [parseCodeBlocksHelper, hlines]
  rw [pcbGo_append msgIdx (openL :: rest) pre 0 .outside (by simpa using hbal)]
  simp only [Nat.zero_add, pcbGo, hopen]
  rw [pcbGo_no_closing msgIdx rest (pre.length + 1) lang pre.length [] hnc]
  simp only [List.reverse_nil, List.nil_append]
  have : (pre.length + 1 + rest.length) - 1 = pre.length + rest.length := by
    omega
  rw [this]

theorem C7_unterminated_fence_witness :
    parseCodeBlocksHelper 0 "a\n```py\nb\nc" =
      [(0, ⟨"b\nc", some "py", 2, 3⟩)] := by
  have h := C7_unterminated_fence "a\n```py\nb\nc" 0 ["a"] ["b", "c"] "```py"
    (some "py") (by decide) (by decide) (by decide) (by decide)
  rw [h]
  decide

/-! ### C6: streamed content and the truncation set -/

/-- C6: evaluation at the failing input.  The chat's in-progress assistant
message has index 1 and sits in `truncated_messages`; a fragment `y` is
buffered.  `process_stream` extends that message (its content becomes `xy`)
but removes index 2 — `messages.len()` — from the truncation set instead of
index 1, so the streamed message stays truncated: rebuilding its cache entry
with a wrap function producing 11 lines still yields `is_truncated = true`,
contradicting the claim that a streaming message is never truncated. -/
theorem C6_truncation_bug :
    (processStream cexApp6).truncatedMessages = [1] ∧
    (processStream cexApp6).chats =
      [⟨"a", "t", [⟨"user", "u"⟩, ⟨"assistant", "xy"⟩], "m", true⟩] ∧
    (buildMessageEntry cexWrap11 80 [1] 1 "assistant" "xy").2 = true := by
  refine ⟨by decide, by decide, by decide⟩

end Meowi
